import Mathlib

/-!
Shallow embedding of `gigachad-list` (`src/lib.rs`): an arena-backed
singly linked list with a compact `NonZeroU32` node pointer.

Modelling conventions:
* `ListNodePtr<T>` wraps a `NonZeroU32`; we model a pointer by its numeric
  value (a `Nat`).  `PhantomData` carries no data and is dropped.
* `u32` arithmetic is explicit: the cast `len as u32` is `% 2 ^ 32`.
* A Rust panic (a failed `assert!`, or out-of-bounds `Vec` indexing) is the
  `none` case of an `Option`-valued result; an absent value (`Option::None`
  in Rust's return type) is the inner `none`.
* `&mut`/`&` state is made explicit: an operation returns the new list
  handle, and the new arena exactly when Rust takes the arena by `&mut`.
-/

set_option autoImplicit false

/-- Lean lists stand for Rust's `Vec` backing store and for value sequences.
The alias keeps the name `List` free for the embedded Rust `List<T>` inside
the namespace below. -/
abbrev Vec (α : Type) : Type := List α

namespace Gigachad

/-! ### `ListNodePtr<T>` (`src/lib.rs`, `struct ListNodePtr`) -/

namespace ListNodePtr

/-- `ListNodePtr::MAX_U32 = std::u32::MAX - 0xFF`. -/
def MAX_U32 : Nat := 4294967295 - 255

/-- `ListNodePtr::MAX_USIZE = MAX_U32 as usize` (lossless on 64-bit). -/
def MAX_USIZE : Nat := MAX_U32

/-- `ListNodePtr::INVALID = new_unchecked(MAX_U32)`: the sentinel pointer,
modelled by its numeric index value. -/
def INVALID : Nat := MAX_U32

/-- `ListNodePtr::as_usize`: `(self.index.get() - 1) as usize` — removes the
1-based offset of the encoding. -/
def as_usize (p : Nat) : Nat := p - 1

end ListNodePtr

/-- `Node<T>`: a value (`head`) and the pointer to the next node (`tail`). -/
structure Node (α : Type) where
  head : α
  tail : Nat
deriving DecidableEq

/-- `List<T>`: a single compact node pointer denoting the head of a chain
(`INVALID` denotes the empty list). -/
structure List (α : Type) where
  node : Nat
deriving DecidableEq

/-- `Arena<T>`: the growable backing sequence of nodes. -/
structure Arena (α : Type) where
  values : Vec (Node α)
deriving DecidableEq

/-! ### `Arena<T>` operations -/

/-- `Arena::add`: pushes the node, then asserts `len < MAX_USIZE` (with `len`
the length *after* the push) and returns `new_unchecked(len as u32)`.
`none` models the assertion failure (abort). -/
def Arena.add {α : Type} (a : Arena α) (t : Node α) : Option (Arena α × Nat) :=
  let values := a.values ++ [t]
  if values.length < ListNodePtr.MAX_USIZE then
    some (⟨values⟩, values.length % 4294967296)
  else
    none

/-- `Arena::data`: `&self.values[ptr.as_usize()]`.  `none` models the
out-of-bounds panic of `Vec` indexing. -/
def Arena.data {α : Type} (a : Arena α) (p : Nat) : Option (Node α) :=
  a.values[ListNodePtr.as_usize p]?

/-- `Arena::default`: an empty backing vector. -/
def Arena.default (α : Type) : Arena α := ⟨[]⟩

/-! ### `List<T>` operations -/

/-- `List::is_empty`: `self.node == ListNodePtr::INVALID`. -/
def List.is_empty {α : Type} (l : List α) : Bool :=
  l.node == ListNodePtr.INVALID

/-- `List::default`: the empty handle (`INVALID` pointer). -/
def List.default (α : Type) : List α := ⟨ListNodePtr.INVALID⟩

/-- `Clone for List`: copies only the 32-bit handle. -/
def List.clone {α : Type} (l : List α) : List α := ⟨l.node⟩

/-- `List::peek`: `(self.node != INVALID).then(|| &arena.data(self.node).head)`.
Outer `none` models a panic inside `data`; the inner option is Rust's return
value. -/
def List.peek {α : Type} (l : List α) (a : Arena α) : Option (Option α) :=
  if l.node ≠ ListNodePtr.INVALID then
    (a.data l.node).map fun nd => some nd.head
  else
    some none

/-- `List::push_front`: `self.node = arena.add(Node { head, tail: self.node })`.
Returns the updated handle and arena; `none` models the capacity abort. -/
def List.push_front {α : Type} (l : List α) (a : Arena α) (head : α) :
    Option (List α × Arena α) :=
  (a.add ⟨head, l.node⟩).map fun r => (⟨r.2⟩, r.1)

/-- `List::pop_front`: early-returns Rust `None` when empty, otherwise reads
the head node, advances the handle to its tail and returns its value.  Outer
`none` models a panic inside `data`. -/
def List.pop_front {α : Type} (l : List α) (a : Arena α) :
    Option (List α × Option α) :=
  if l.is_empty then
    some (l, none)
  else
    (a.data l.node).map fun nd => (⟨nd.tail⟩, some nd.head)

/-- Fuel-indexed unfolding of `List::iter`'s `from_fn(move || self.pop_front(arena))`:
collects, for each successful pop, the pointer of the visited node together
with its value (the pointer is ghost information used to state that no node is
visited twice), and returns the final state of the internal handle.  The fuel
only bounds the recursion; `iter` below supplies fuel large enough that — for
well-formed arenas — iteration always ends because the handle became empty. -/
def List.iterTrace {α : Type} (a : Arena α) : Nat → List α → Vec (Nat × α) × List α
  | 0, l => ([], l)
  | fuel + 1, l =>
    match l.pop_front a with
    | some (l', some v) =>
      let r := iterTrace a fuel l'
      ((l.node, v) :: r.1, r.2)
    | _ => ([], l)

/-- `List::iter`: the sequence of values yielded by repeatedly popping a copy
of the handle. -/
def List.iter {α : Type} (l : List α) (a : Arena α) : Vec α :=
  (List.iterTrace a (a.values.length + 1) l).1.map Prod.snd

/-! ### Caller-side operation wrappers

A caller's state is the arena together with one list handle.  Each wrapper
threads the state exactly as the Rust borrows dictate: `push_front` takes the
arena by `&mut` (a new arena is returned); `pop_front`, `peek` take the arena
by `&` and `self` by `&mut`/`&` (the caller's arena is returned unchanged);
`iter` takes `self` *by value*, and since `List<T>` is `Copy` the caller's
own handle is a retained copy, unchanged by the call (the repository's test
relies on this: after `list.iter(&arena)` it still pops `Some(&3)` from
`list`). -/

/-- A caller's state: one arena and one list handle. -/
structure State (α : Type) where
  arena : Arena α
  handle : List α
deriving DecidableEq

/-- `push_front` at the call site: `list.push_front(&mut arena, v)`. -/
def pushOp {α : Type} (s : State α) (v : α) : Option (State α) :=
  (s.handle.push_front s.arena v).map fun r => ⟨r.2, r.1⟩

/-- `pop_front` at the call site: `list.pop_front(&arena)` — the arena is
borrowed immutably, so the caller's arena is unchanged. -/
def popOp {α : Type} (s : State α) : Option (State α × Option α) :=
  (s.handle.pop_front s.arena).map fun r => (⟨s.arena, r.1⟩, r.2)

/-- `peek` at the call site: `list.peek(&arena)` — neither the handle nor the
arena is mutated. -/
def peekOp {α : Type} (s : State α) : Option (Option α × State α) :=
  (s.handle.peek s.arena).map fun r => (r, s)

/-- `iter` at the call site: `list.iter(&arena)` — `self` is passed by value
and `List<T> : Copy`, so the caller keeps an unchanged copy of the handle. -/
def iterOp {α : Type} (s : State α) : Vec α × State α :=
  (s.handle.iter s.arena, s)

/-! ### Sequences of operations (test harness combinators) -/

/-- Push the values of `vs` in order via `push_front`. -/
def pushAll {α : Type} (l : List α) (a : Arena α) : Vec α → Option (List α × Arena α)
  | [] => some (l, a)
  | v :: vs =>
    match l.push_front a v with
    | none => none
    | some (l', a') => pushAll l' a' vs

/-- Pop `n` times via `pop_front`, collecting each returned value; `none`
models a panic in some pop. -/
def popMany {α : Type} : Nat → List α → Arena α → Option (Vec (Option α) × List α)
  | 0, l, _ => some ([], l)
  | n + 1, l, a =>
    match l.pop_front a with
    | none => none
    | some (l', r) => (popMany n l' a).map fun s => (r :: s.1, s.2)

/-! ### Validity invariants

The pointer values the code can actually produce are `INVALID` and the
1-based positions issued by `Arena::add` (always nonzero, by `NonZeroU32`,
and in bounds).  A node's `tail` is the handle value at the moment of the
push, so it always references a strictly earlier slot. -/

/-- A pointer value the code can hand out against arena `a`: the sentinel, or
a nonzero 1-based index of an existing slot. -/
def Ptr.Valid {α : Type} (a : Arena α) (p : Nat) : Prop :=
  p = ListNodePtr.INVALID ∨ (0 < p ∧ p ≤ a.values.length)

instance {α : Type} (a : Arena α) (p : Nat) : Decidable (Ptr.Valid a p) := by
  unfold Ptr.Valid; infer_instance

/-- Arena well-formedness: every stored node's `tail` is the sentinel or a
nonzero pointer whose slot (`as_usize`) lies strictly below the node's own
slot. -/
def Arena.WF {α : Type} (a : Arena α) : Prop :=
  ∀ i, (h : i < a.values.length) →
    a.values[i].tail = ListNodePtr.INVALID ∨
      (0 < a.values[i].tail ∧ ListNodePtr.as_usize a.values[i].tail < i)

instance {α : Type} (a : Arena α) : Decidable a.WF := by
  unfold Arena.WF; exact Nat.decidableBallLT _ _

/-- `Chain a p pxs`: starting from pointer value `p`, the arena `a` contains a
properly terminated chain of nodes whose (pointer, value) trace is `pxs`.
This is the denotation of a list handle.  Pointers are positive because every
pointer the code builds is a `NonZeroU32`. -/
inductive Chain {α : Type} (a : Arena α) : Nat → Vec (Nat × α) → Prop where
  | nil : Chain a ListNodePtr.INVALID []
  | cons {p : Nat} {nd : Node α} {rest : Vec (Nat × α)}
      (hne : p ≠ ListNodePtr.INVALID) (hpos : 0 < p)
      (hdata : a.data p = some nd) (htail : Chain a nd.tail rest) :
      Chain a p ((p, nd.head) :: rest)

/-! ### Reachable program states

A whole-program state is the arena together with every live handle; the step
relation has one case per public operation (creating a fresh empty handle,
copying a handle, `push_front`, `pop_front`, `peek`, `iter`). -/

/-- A whole-program state: the arena and all live list handles. -/
structure Mem (α : Type) where
  arena : Arena α
  handles : Vec (List α)

/-- One public operation applied to a reachable state.  `peek` and `iter`
borrow the arena immutably and take the handle by `&`/by copy, so they leave
the state unchanged. -/
inductive Step {α : Type} : Mem α → Mem α → Prop where
  | newHandle (s : Mem α) :
      Step s ⟨s.arena, s.handles ++ [List.default α]⟩
  | cloneHandle (s : Mem α) (i : Nat) (l : List α)
      (h : s.handles[i]? = some l) :
      Step s ⟨s.arena, s.handles ++ [l.clone]⟩
  | push (s : Mem α) (i : Nat) (l : List α) (v : α) (l' : List α) (a' : Arena α)
      (h : s.handles[i]? = some l)
      (hp : l.push_front s.arena v = some (l', a')) :
      Step s ⟨a', s.handles.set i l'⟩
  | pop (s : Mem α) (i : Nat) (l l' : List α) (r : Option α)
      (h : s.handles[i]? = some l)
      (hp : l.pop_front s.arena = some (l', r)) :
      Step s ⟨s.arena, s.handles.set i l'⟩
  | peekStep (s : Mem α) (i : Nat) (l : List α) (r : Option α)
      (h : s.handles[i]? = some l)
      (hp : l.peek s.arena = some r) :
      Step s s
  | iterStep (s : Mem α) (i : Nat) (l : List α)
      (h : s.handles[i]? = some l) :
      Step s s

/-- States reachable from the initial state (a default arena, no handles)
through the public operations. -/
inductive Reachable {α : Type} : Mem α → Prop where
  | init : Reachable ⟨Arena.default α, []⟩
  | step {s s' : Mem α} : Reachable s → Step s s' → Reachable s'

/-- The state invariant maintained by the public operations: the arena is
well-formed and strictly below the capacity bound, and every live handle's
pointer is valid for the arena. -/
def Mem.Inv {α : Type} (s : Mem α) : Prop :=
  s.arena.WF ∧ s.arena.values.length < ListNodePtr.MAX_USIZE ∧
    ∀ l ∈ s.handles, Ptr.Valid s.arena l.node

/-! ### Bit-level layout model (the `size_asserts` module)

`List<T>` stores exactly one `NonZeroU32`, so its machine representation is a
32-bit word whose value is never `0`; Rust's niche optimization represents
`Option<List<T>>` in the same 32 bits by using the forbidden pattern `0` for
`None`.  We model the representation function explicitly and express the
`static_assert_size!(List<String>, 4)` / `static_assert_size!(Option<List<String>>, 4)`
assertions as: both types embed injectively into the `2 ^ 32` patterns of a
4-byte word (and not into the `2 ^ 24` patterns of any 3-byte word), with the
`Option` encoding extending the plain one at zero cost. -/

/-- The 32-bit pattern stored by a `List<T>` handle (its `NonZeroU32` value). -/
def List.bits {α : Type} (l : List α) : Nat := l.node

/-- The bit patterns a `List<T>` handle may hold: any nonzero 32-bit value
(the raw range of `NonZeroU32`). -/
def List.ValidBits {α : Type} (l : List α) : Prop :=
  0 < l.node ∧ l.node < 4294967296

instance {α : Type} (l : List α) : Decidable l.ValidBits := by
  unfold List.ValidBits; infer_instance

/-- The 32-bit pattern of `Option<List<T>>` under niche optimization: `None`
takes the pattern `0`, which no valid handle occupies. -/
def optBits {α : Type} : Option (List α) → Nat
  | none => 0
  | some l => l.bits

/-! ### Concrete test data (the state built by the repository's `basics` test
after `push_front(1); push_front(2); push_front(3)` on a default arena and
handle). -/

/-- The arena after pushing `1, 2, 3` onto an initially empty list. -/
def testArena : Arena Nat :=
  ⟨[⟨1, ListNodePtr.INVALID⟩, ⟨2, 1⟩, ⟨3, 2⟩]⟩

/-- The handle after pushing `1, 2, 3`: it points at slot 2 (pointer value 3). -/
def testList : List Nat := ⟨3⟩

/-!
## Lemmas
-/

theorem ListNodePtr.as_usize_eq (p : Nat) : ListNodePtr.as_usize p = p - 1 := rfl

theorem List.is_empty_iff {α : Type} {l : List α} :
    l.is_empty = true ↔ l.node = ListNodePtr.INVALID := by
  simp [List.is_empty]

theorem List.is_empty_eq_false {α : Type} {l : List α}
    (h : l.node ≠ ListNodePtr.INVALID) : l.is_empty = false := by
  simp [List.is_empty, h]

theorem Arena.add_eq_some {α : Type} {a : Arena α} {t : Node α} {a' : Arena α} {p : Nat} :
    a.add t = some (a', p) ↔
      a.values.length + 1 < ListNodePtr.MAX_USIZE ∧
        a' = ⟨a.values ++ [t]⟩ ∧ p = a.values.length + 1 := by
  unfold Arena.add
  simp only [List.length_append, List.length_cons, List.length_nil]
  split
  · next hlt =>
    have hmod : (a.values.length + 1) % 4294967296 = a.values.length + 1 := by
      have hmax : ListNodePtr.MAX_USIZE < 4294967296 := by decide
      exact Nat.mod_eq_of_lt (by omega)
    simp only [Option.some_inj, Prod.mk.injEq, hmod]
    constructor
    · rintro ⟨h1, h2⟩
      exact ⟨hlt, h1.symm, h2.symm⟩
    · rintro ⟨-, h1, h2⟩
      exact ⟨h1.symm, h2.symm⟩
  · next hlt =>
    constructor
    · intro h
      exact Option.noConfusion h
    · rintro ⟨h, -, -⟩
      exact absurd h hlt

theorem Arena.add_eq_none {α : Type} {a : Arena α} {t : Node α} :
    a.add t = none ↔ ¬ a.values.length + 1 < ListNodePtr.MAX_USIZE := by
  unfold Arena.add
  simp only [List.length_append, List.length_cons, List.length_nil]
  split <;> simp_all

theorem Arena.data_lt {α : Type} {a : Arena α} {p : Nat} {nd : Node α}
    (h : a.data p = some nd) : ListNodePtr.as_usize p < a.values.length := by
  unfold Arena.data at h
  exact (List.getElem?_eq_some.mp h).1

theorem Arena.data_get {α : Type} {a : Arena α} {p : Nat} {nd : Node α}
    (h : a.data p = some nd) :
    ∃ hlt : ListNodePtr.as_usize p < a.values.length,
      a.values[ListNodePtr.as_usize p] = nd := by
  unfold Arena.data at h
  exact List.getElem?_eq_some.mp h

theorem Arena.data_of_get {α : Type} {a : Arena α} {p : Nat}
    (hlt : ListNodePtr.as_usize p < a.values.length) :
    a.data p = some a.values[ListNodePtr.as_usize p] := by
  unfold Arena.data
  exact List.getElem?_eq_getElem hlt

theorem Arena.data_append {α : Type} (a : Arena α) (nd : Node α) {p : Nat}
    (hle : ListNodePtr.as_usize p < a.values.length) :
    Arena.data ⟨a.values ++ [nd]⟩ p = a.data p := by
  unfold Arena.data
  exact List.getElem?_append_left hle

theorem Arena.data_last {α : Type} (a : Arena α) (nd : Node α) :
    Arena.data ⟨a.values ++ [nd]⟩ (a.values.length + 1) = some nd := by
  unfold Arena.data
  rw [ListNodePtr.as_usize_eq]
  simp [List.getElem?_concat_length]

theorem Chain.eq_nil_of_invalid {α : Type} {a : Arena α} {pxs : Vec (Nat × α)}
    (h : Chain a ListNodePtr.INVALID pxs) : pxs = [] := by
  cases h with
  | nil => rfl
  | cons hne _ _ _ => exact absurd rfl hne

theorem Chain.valid {α : Type} {a : Arena α} {p : Nat} {pxs : Vec (Nat × α)}
    (h : Chain a p pxs) : Ptr.Valid a p := by
  cases h with
  | nil => exact Or.inl rfl
  | cons hne hpos hdata htail =>
    have hlt := Arena.data_lt hdata
    rw [ListNodePtr.as_usize_eq] at hlt
    exact Or.inr ⟨hpos, by omega⟩

theorem Chain.cons_elim {α : Type} {a : Arena α} {p q : Nat} {x : α} {rest : Vec (Nat × α)}
    (h : Chain a p ((q, x) :: rest)) :
    q = p ∧ p ≠ ListNodePtr.INVALID ∧ 0 < p ∧
      ∃ nd : Node α, a.data p = some nd ∧ nd.head = x ∧ Chain a nd.tail rest := by
  cases h with
  | cons hne hpos hdata htail => exact ⟨rfl, hne, hpos, _, hdata, rfl, htail⟩

theorem Chain.mono_append {α : Type} {a : Arena α} (nd : Node α) {p : Nat} {pxs : Vec (Nat × α)}
    (hc : Chain a p pxs) : Chain (⟨a.values ++ [nd]⟩ : Arena α) p pxs := by
  induction hc with
  | nil => exact Chain.nil
  | cons hne hpos hdata htail ih =>
    refine Chain.cons hne hpos ?_ ih
    rw [Arena.data_append a nd (Arena.data_lt hdata)]
    exact hdata

theorem List.pop_front_of_empty {α : Type} {l : List α} (a : Arena α)
    (h : l.is_empty = true) : l.pop_front a = some (l, none) := by
  simp [List.pop_front, h]

theorem List.pop_front_chain_cons {α : Type} {l : List α} {a : Arena α}
    {q : Nat} {x : α} {rest : Vec (Nat × α)}
    (hc : Chain a l.node ((q, x) :: rest)) :
    ∃ tl, l.pop_front a = some (⟨tl⟩, some x) ∧ Chain a tl rest ∧ q = l.node := by
  obtain ⟨hq, hne, hpos, nd, hdata, hx, htail⟩ := Chain.cons_elim hc
  refine ⟨nd.tail, ?_, htail, hq⟩
  simp [List.pop_front, List.is_empty_eq_false hne, hdata, hx]

theorem List.peek_of_empty {α : Type} {l : List α} (a : Arena α)
    (h : l.node = ListNodePtr.INVALID) : l.peek a = some none := by
  simp [List.peek, h]

theorem List.peek_chain_cons {α : Type} {l : List α} {a : Arena α}
    {q : Nat} {x : α} {rest : Vec (Nat × α)}
    (hc : Chain a l.node ((q, x) :: rest)) : l.peek a = some (some x) := by
  obtain ⟨hq, hne, hpos, nd, hdata, hx, htail⟩ := Chain.cons_elim hc
  simp [List.peek, hne, hdata, hx]

theorem List.push_front_eq_some {α : Type} {l : List α} {a : Arena α} {v : α}
    {l' : List α} {a' : Arena α} :
    l.push_front a v = some (l', a') ↔
      a.values.length + 1 < ListNodePtr.MAX_USIZE ∧
        l' = ⟨a.values.length + 1⟩ ∧ a' = ⟨a.values ++ [⟨v, l.node⟩]⟩ := by
  unfold List.push_front
  constructor
  · intro h
    rw [Option.map_eq_some'] at h
    obtain ⟨r, hr, heq⟩ := h
    obtain ⟨hcap, ha, hp⟩ := Arena.add_eq_some.mp hr
    injection heq with h1 h2
    subst h1
    subst h2
    refine ⟨hcap, ?_, ha⟩
    rw [hp]
  · rintro ⟨hcap, rfl, rfl⟩
    rw [show a.add ⟨v, l.node⟩ =
          some (⟨a.values ++ [⟨v, l.node⟩]⟩, a.values.length + 1) from
        Arena.add_eq_some.mpr ⟨hcap, rfl, rfl⟩]
    rfl

theorem Ptr.Valid.grow {α : Type} {a : Arena α} (t : Node α) {p : Nat}
    (h : Ptr.Valid a p) : Ptr.Valid (⟨a.values ++ [t]⟩ : Arena α) p := by
  rcases h with h | ⟨h1, h2⟩
  · exact Or.inl h
  · refine Or.inr ⟨h1, ?_⟩
    show p ≤ (a.values ++ [t]).length
    simp only [List.length_append, List.length_cons, List.length_nil]
    omega

theorem Arena.wf_iff {α : Type} {a : Arena α} :
    a.WF ↔ ∀ (p : Nat) (nd : Node α), a.data p = some nd →
      nd.tail = ListNodePtr.INVALID ∨
        (0 < nd.tail ∧ ListNodePtr.as_usize nd.tail < ListNodePtr.as_usize p) := by
  constructor
  · intro hwf p nd hdata
    obtain ⟨hlt, hget⟩ := Arena.data_get hdata
    have h := hwf _ hlt
    rw [hget] at h
    exact h
  · intro H i h
    have hdata : a.data (i + 1) = some a.values[i] := by
      unfold Arena.data
      show a.values[i]? = some a.values[i]
      exact List.getElem?_eq_getElem h
    have hb := H (i + 1) _ hdata
    rcases hb with h1 | ⟨h2, h3⟩
    · exact Or.inl h1
    · refine Or.inr ⟨h2, ?_⟩
      simp only [ListNodePtr.as_usize_eq] at h3 ⊢
      omega

theorem Arena.WF.push_node {α : Type} {a : Arena α} {t : Node α}
    (hwf : a.WF) (hv : Ptr.Valid a t.tail) :
    (⟨a.values ++ [t]⟩ : Arena α).WF := by
  rw [Arena.wf_iff]
  intro p nd hdata
  have hlt : ListNodePtr.as_usize p < a.values.length + 1 := by
    have := Arena.data_lt hdata
    simpa using this
  by_cases hp : ListNodePtr.as_usize p < a.values.length
  · rw [Arena.data_append a t hp] at hdata
    exact (Arena.wf_iff.mp hwf) p nd hdata
  · have hpe : ListNodePtr.as_usize p = a.values.length := by omega
    have ht : Arena.data ⟨a.values ++ [t]⟩ p = some t := by
      unfold Arena.data
      show (a.values ++ [t])[ListNodePtr.as_usize p]? = some t
      rw [hpe]
      exact List.getElem?_concat_length _ _
    rw [ht] at hdata
    injection hdata with hnd
    subst hnd
    rcases hv with h1 | ⟨h2, h3⟩
    · exact Or.inl h1
    · refine Or.inr ⟨h2, ?_⟩
      rw [ListNodePtr.as_usize_eq]
      rw [hpe]
      omega

theorem Chain.push_new {α : Type} {a : Arena α} {l : List α} {v : α} {pxs : Vec (Nat × α)}
    (hcap : a.values.length + 1 < ListNodePtr.MAX_USIZE)
    (hc : Chain a l.node pxs) :
    Chain (⟨a.values ++ [⟨v, l.node⟩]⟩ : Arena α) (a.values.length + 1)
      ((a.values.length + 1, v) :: pxs) := by
  refine Chain.cons ?_ (Nat.succ_pos _) (Arena.data_last a _) (Chain.mono_append _ hc)
  intro h
  have e1 : ListNodePtr.INVALID = 4294967040 := rfl
  have e2 : ListNodePtr.MAX_USIZE = 4294967040 := rfl
  omega

theorem Chain.length_le {α : Type} {a : Arena α} (hwf : a.WF) {p : Nat}
    {pxs : Vec (Nat × α)} (hc : Chain a p pxs) : pxs.length ≤ p := by
  induction hc with
  | nil => exact Nat.zero_le _
  | cons hne hpos hdata htail ih =>
    rename_i p nd rest
    have hb := Arena.wf_iff.mp hwf _ _ hdata
    cases rest with
    | nil => simpa using hpos
    | cons qx rest2 =>
      obtain ⟨q, x⟩ := qx
      obtain ⟨hq, hne2, -, -⟩ := Chain.cons_elim htail
      rcases hb with h1 | ⟨h2, h3⟩
      · exact absurd h1 hne2
      · simp only [List.length_cons] at ih ⊢
        simp only [ListNodePtr.as_usize_eq] at h3
        omega

theorem Chain.ptr_le {α : Type} {a : Arena α} (hwf : a.WF) {p : Nat}
    {pxs : Vec (Nat × α)} (hc : Chain a p pxs) :
    ∀ q ∈ pxs.map Prod.fst, q ≤ p := by
  induction hc with
  | nil => intro q hq; simp at hq
  | cons hne hpos hdata htail ih =>
    rename_i p nd rest
    intro q hq
    simp only [List.map_cons, List.mem_cons] at hq
    rcases hq with rfl | hq
    · exact Nat.le_refl _
    · have hb := Arena.wf_iff.mp hwf _ _ hdata
      cases rest with
      | nil => simp at hq
      | cons qx rest2 =>
        obtain ⟨q0, x0⟩ := qx
        obtain ⟨hq0, hne2, -, -⟩ := Chain.cons_elim htail
        have hqle := ih q (by simpa using hq)
        rcases hb with h1 | ⟨h2, h3⟩
        · exact absurd h1 hne2
        · simp only [ListNodePtr.as_usize_eq] at h3
          omega

theorem Chain.pairwise {α : Type} {a : Arena α} (hwf : a.WF) {p : Nat}
    {pxs : Vec (Nat × α)} (hc : Chain a p pxs) :
    (pxs.map Prod.fst).Pairwise (fun x y => y < x) := by
  induction hc with
  | nil => simp
  | cons hne hpos hdata htail ih =>
    rename_i p nd rest
    simp only [List.map_cons]
    refine List.Pairwise.cons ?_ ih
    intro q hq
    have hb := Arena.wf_iff.mp hwf _ _ hdata
    cases rest with
    | nil => simp at hq
    | cons qx rest2 =>
      obtain ⟨q0, x0⟩ := qx
      obtain ⟨hq0, hne2, -, -⟩ := Chain.cons_elim htail
      have hqle := Chain.ptr_le hwf htail q hq
      rcases hb with h1 | ⟨h2, h3⟩
      · exact absurd h1 hne2
      · simp only [ListNodePtr.as_usize_eq] at h3
        omega

theorem Chain.nodup {α : Type} {a : Arena α} (hwf : a.WF) {p : Nat}
    {pxs : Vec (Nat × α)} (hc : Chain a p pxs) : (pxs.map Prod.fst).Nodup :=
  (Chain.pairwise hwf hc).imp fun hlt => Nat.ne_of_gt hlt

theorem Chain.length_le_arena {α : Type} {a : Arena α} (hwf : a.WF) {p : Nat}
    {pxs : Vec (Nat × α)} (hc : Chain a p pxs) : pxs.length ≤ a.values.length := by
  cases hc with
  | nil => simp
  | cons hne hpos hdata htail =>
    rename_i nd rest
    have h1 := Chain.length_le hwf (Chain.cons hne hpos hdata htail)
    have h2 := Arena.data_lt hdata
    simp only [ListNodePtr.as_usize_eq] at h2
    simp only [List.length_cons] at h1 ⊢
    omega

theorem List.iterTrace_chain {α : Type} {a : Arena α} {p : Nat} {pxs : Vec (Nat × α)}
    (hc : Chain a p pxs) :
    ∀ fuel, pxs.length < fuel →
      List.iterTrace a fuel (⟨p⟩ : List α) = (pxs, List.default α) := by
  induction hc with
  | nil =>
    intro fuel hfuel
    obtain ⟨f, rfl⟩ : ∃ f, fuel = f + 1 := ⟨fuel - 1, by omega⟩
    have hpop : (⟨ListNodePtr.INVALID⟩ : List α).pop_front a
        = some (⟨ListNodePtr.INVALID⟩, none) :=
      List.pop_front_of_empty a (by simp [List.is_empty])
    rw [List.iterTrace, hpop]
    rfl
  | cons hne hpos hdata htail ih =>
    rename_i p nd rest
    intro fuel hfuel
    obtain ⟨f, rfl⟩ : ∃ f, fuel = f + 1 := ⟨fuel - 1, by omega⟩
    have hpop : (⟨p⟩ : List α).pop_front a = some (⟨nd.tail⟩, some nd.head) := by
      simp [List.pop_front,
        List.is_empty_eq_false (show (⟨p⟩ : List α).node ≠ ListNodePtr.INVALID from hne),
        hdata]
    have hrec := ih f (by simp only [List.length_cons] at hfuel; omega)
    rw [List.iterTrace, hpop]
    show ((p, nd.head) :: (List.iterTrace a f (⟨nd.tail⟩ : List α)).1,
        (List.iterTrace a f (⟨nd.tail⟩ : List α)).2) = ((p, nd.head) :: rest, List.default α)
    rw [hrec]

theorem List.iter_chain {α : Type} {a : Arena α} {l : List α} {pxs : Vec (Nat × α)}
    (hwf : a.WF) (hc : Chain a l.node pxs) :
    l.iter a = pxs.map Prod.snd ∧
      List.iterTrace a (a.values.length + 1) l = (pxs, List.default α) := by
  have hlen := Chain.length_le_arena hwf hc
  have ht : List.iterTrace a (a.values.length + 1) l = (pxs, List.default α) :=
    List.iterTrace_chain hc (a.values.length + 1) (by omega)
  refine ⟨?_, ht⟩
  unfold List.iter
  rw [ht]

theorem popMany_chain {α : Type} {a : Arena α} {p : Nat} {pxs : Vec (Nat × α)}
    (hc : Chain a p pxs) :
    popMany pxs.length (⟨p⟩ : List α) a
      = some (pxs.map (fun q => some q.2), List.default α) := by
  induction hc with
  | nil =>
    show popMany 0 (⟨ListNodePtr.INVALID⟩ : List α) a = _
    rw [popMany]
    rfl
  | cons hne hpos hdata htail ih =>
    rename_i p nd rest
    have hpop : (⟨p⟩ : List α).pop_front a = some (⟨nd.tail⟩, some nd.head) := by
      simp [List.pop_front,
        List.is_empty_eq_false (show (⟨p⟩ : List α).node ≠ ListNodePtr.INVALID from hne),
        hdata]
    show popMany (rest.length + 1) (⟨p⟩ : List α) a = _
    rw [popMany, hpop]
    show (popMany rest.length (⟨nd.tail⟩ : List α) a).map
        (fun s => (some nd.head :: s.1, s.2)) = _
    rw [ih]
    rfl

theorem pushAll_sound {α : Type} :
    ∀ (vs : Vec α) (a : Arena α) (l : List α) (pxs : Vec (Nat × α)) (l' : List α)
      (a' : Arena α), a.WF → Chain a l.node pxs → pushAll l a vs = some (l', a') →
      ∃ qxs : Vec (Nat × α),
        a'.WF ∧ Chain a' l'.node (qxs ++ pxs) ∧ qxs.map Prod.snd = vs.reverse ∧
          a'.values.length = a.values.length + vs.length := by
  intro vs
  induction vs with
  | nil =>
    intro a l pxs l' a' hwf hc hpush
    simp only [pushAll, Option.some_inj, Prod.mk.injEq] at hpush
    obtain ⟨h1, h2⟩ := hpush
    subst h1
    subst h2
    exact ⟨[], hwf, by simpa using hc, by simp, by simp⟩
  | cons v vs ih =>
    intro a l pxs l' a' hwf hc hpush
    unfold pushAll at hpush
    cases hp : l.push_front a v with
    | none =>
      rw [hp] at hpush
      exact Option.noConfusion hpush
    | some r =>
      obtain ⟨l₁, a₁⟩ := r
      rw [hp] at hpush
      have hpush' : pushAll l₁ a₁ vs = some (l', a') := hpush
      obtain ⟨hcap, hl₁, ha₁⟩ := List.push_front_eq_some.mp hp
      subst hl₁
      subst ha₁
      have hwf1 : (⟨a.values ++ [⟨v, l.node⟩]⟩ : Arena α).WF :=
        Arena.WF.push_node hwf (Chain.valid hc)
      have hc1 : Chain (⟨a.values ++ [⟨v, l.node⟩]⟩ : Arena α) (a.values.length + 1)
          ((a.values.length + 1, v) :: pxs) := Chain.push_new hcap hc
      obtain ⟨qxs, hwf', hc', hmap, hlen⟩ := ih _ _ _ _ _ hwf1 hc1 hpush'
      refine ⟨qxs ++ [(a.values.length + 1, v)], hwf', ?_, ?_, ?_⟩
      · rw [List.append_assoc]
        simpa using hc'
      · simp [hmap]
      · simp only [List.length_append, List.length_cons, List.length_nil] at hlen ⊢
        omega

theorem List.pop_front_valid {α : Type} {l l' : List α} {a : Arena α} {r : Option α}
    (hwf : a.WF) (hp : l.pop_front a = some (l', r)) : Ptr.Valid a l'.node := by
  unfold List.pop_front at hp
  by_cases he : l.is_empty
  · rw [if_pos he] at hp
    injection hp with h
    injection h with h1 h2
    subst h1
    exact Or.inl (List.is_empty_iff.mp he)
  · rw [if_neg he] at hp
    cases hd : a.data l.node with
    | none =>
      rw [hd] at hp
      exact Option.noConfusion hp
    | some nd =>
      rw [hd] at hp
      have hp2 : some ((⟨nd.tail⟩ : List α), some nd.head) = some (l', r) := hp
      injection hp2 with h
      injection h with h1 h2
      subst h1
      show Ptr.Valid a nd.tail
      have hb := Arena.wf_iff.mp hwf _ _ hd
      have hlt := Arena.data_lt hd
      rcases hb with hb | ⟨hb1, hb2⟩
      · exact Or.inl hb
      · refine Or.inr ⟨hb1, ?_⟩
        simp only [ListNodePtr.as_usize_eq] at hb2 hlt
        omega

theorem Step.arena_extends {α : Type} {s s' : Mem α} (h : Step s s') :
    s.arena.values.length ≤ s'.arena.values.length ∧
      ∀ i, i < s.arena.values.length → s'.arena.values[i]? = s.arena.values[i]? := by
  cases h with
  | newHandle => exact ⟨Nat.le_refl _, fun i h => rfl⟩
  | cloneHandle i l hl => exact ⟨Nat.le_refl _, fun i h => rfl⟩
  | push i l v l' a' hl hp =>
    obtain ⟨hcap, hl', ha'⟩ := List.push_front_eq_some.mp hp
    subst ha'
    constructor
    · show s.arena.values.length ≤ (s.arena.values ++ _).length
      simp
    · intro j hj
      show (s.arena.values ++ _)[j]? = _
      exact List.getElem?_append_left hj
  | pop i l l' r hl hp => exact ⟨Nat.le_refl _, fun i h => rfl⟩
  | peekStep i l r hl hp => exact ⟨Nat.le_refl _, fun i h => rfl⟩
  | iterStep i l hl => exact ⟨Nat.le_refl _, fun i h => rfl⟩

theorem Step.preserves_inv {α : Type} {s s' : Mem α} (hstep : Step s s') (hinv : s.Inv) :
    s'.Inv := by
  obtain ⟨hwf, hlen, hval⟩ := hinv
  cases hstep with
  | newHandle =>
    refine ⟨hwf, hlen, ?_⟩
    intro l hl
    rcases List.mem_append.mp hl with h | h
    · exact hval l h
    · simp only [List.mem_singleton] at h
      subst h
      exact Or.inl rfl
  | cloneHandle i l0 hl0 =>
    refine ⟨hwf, hlen, ?_⟩
    intro l hl
    rcases List.mem_append.mp hl with h | h
    · exact hval l h
    · simp only [List.mem_singleton] at h
      subst h
      exact hval l0 (List.getElem?_mem hl0)
  | push i l0 v l' a' hl0 hp =>
    obtain ⟨hcap, hl', ha'⟩ := List.push_front_eq_some.mp hp
    subst hl'
    subst ha'
    refine ⟨Arena.WF.push_node hwf (hval l0 (List.getElem?_mem hl0)), ?_, ?_⟩
    · show (s.arena.values ++ _).length < _
      simp only [List.length_append, List.length_cons, List.length_nil]
      exact hcap
    · intro l hl
      rcases List.mem_or_eq_of_mem_set hl with h | h
      · exact Ptr.Valid.grow _ (hval l h)
      · subst h
        refine Or.inr ⟨Nat.succ_pos _, ?_⟩
        show _ ≤ (s.arena.values ++ _).length
        simp
  | pop i l0 l' r hl0 hp =>
    refine ⟨hwf, hlen, ?_⟩
    intro l hl
    rcases List.mem_or_eq_of_mem_set hl with h | h
    · exact hval l h
    · subst h
      exact List.pop_front_valid hwf hp
  | peekStep i l0 r hl0 hp => exact ⟨hwf, hlen, hval⟩
  | iterStep i l0 hl0 => exact ⟨hwf, hlen, hval⟩

theorem Reachable.invariant {α : Type} {s : Mem α} (h : Reachable s) : s.Inv := by
  induction h with
  | init =>
    refine ⟨?_, ?_, ?_⟩
    · intro i h
      exact absurd h (Nat.not_lt_zero i)
    · show (0 : Nat) < ListNodePtr.MAX_USIZE
      decide
    · intro l hl
      simp at hl
  | step hr hstep ih => exact Step.preserves_inv hstep ih

theorem chain_exists {α : Type} {a : Arena α} (hwf : a.WF)
    (hbound : a.values.length < ListNodePtr.MAX_USIZE) :
    ∀ p, Ptr.Valid a p → ∃ pxs, Chain a p pxs := by
  intro p
  induction p using Nat.strong_induction_on with
  | _ p ih =>
    intro hv
    rcases hv with rfl | ⟨hpos, hle⟩
    · exact ⟨[], Chain.nil⟩
    · have hlt : p - 1 < a.values.length := by omega
      have hdata : a.data p = some a.values[p - 1] := by
        unfold Arena.data
        rw [ListNodePtr.as_usize_eq]
        exact List.getElem?_eq_getElem hlt
      have hne : p ≠ ListNodePtr.INVALID := by
        have e1 : ListNodePtr.INVALID = 4294967040 := rfl
        have e2 : ListNodePtr.MAX_USIZE = 4294967040 := rfl
        omega
      have hb := Arena.wf_iff.mp hwf _ _ hdata
      simp only [ListNodePtr.as_usize_eq] at hb
      rcases hb with hb | ⟨hb1, hb2⟩
      · refine ⟨[(p, a.values[p - 1].head)], Chain.cons hne hpos hdata ?_⟩
        rw [hb]
        exact Chain.nil
      · obtain ⟨rest, hrest⟩ :=
          ih a.values[p - 1].tail (by omega) (Or.inr ⟨hb1, by omega⟩)
        exact ⟨(p, a.values[p - 1].head) :: rest, Chain.cons hne hpos hdata hrest⟩

theorem Chain.nil_inv {α : Type} {a : Arena α} {p : Nat} (h : Chain a p []) :
    p = ListNodePtr.INVALID := by
  cases h
  rfl

theorem List.default_is_empty {α : Type} : (List.default α).is_empty = true := by
  simp [List.default, List.is_empty]

theorem testArena_wf : testArena.WF := by decide

theorem testChain : Chain testArena 3 [(3, 3), (2, 2), (1, 1)] :=
  Chain.cons (by decide) (by decide)
    (show testArena.data 3 = some ⟨3, 2⟩ from rfl)
    (Chain.cons (by decide) (by decide)
      (show testArena.data 2 = some ⟨2, 1⟩ from rfl)
      (Chain.cons (by decide) (by decide)
        (show testArena.data 1 = some ⟨1, ListNodePtr.INVALID⟩ from rfl)
        Chain.nil))

/-!
## The claims
-/

/-- C1: pushing values v1, ..., vn via `push_front` in that order onto an
initially empty handle: `peek` immediately after each push returns the value
just pushed; a full `iter` yields the values in reverse push order
(vn, ..., v1); popping n times via `pop_front` returns them in exact
reverse-of-push order and leaves the handle empty, and one further
`pop_front` returns the absent value. -/
theorem push_peek_iter_pop_spec {α : Type} :
    (∀ (l : List α) (a : Arena α) (v : α) (l' : List α) (a' : Arena α),
        l.push_front a v = some (l', a') → l'.peek a' = some (some v)) ∧
      (∀ (a : Arena α) (vs : Vec α) (l l' : List α) (a' : Arena α),
        a.WF → l.is_empty = true → pushAll l a vs = some (l', a') →
          l'.iter a' = vs.reverse ∧
            popMany vs.length l' a' = some (vs.reverse.map some, List.default α) ∧
            (List.default α).is_empty = true ∧
            (List.default α).pop_front a' = some (List.default α, none)) := by
  constructor
  · intro l a v l' a' hp
    obtain ⟨hcap, hl', ha'⟩ := List.push_front_eq_some.mp hp
    subst hl'
    subst ha'
    have hne : (a.values.length + 1) ≠ ListNodePtr.INVALID := by
      have e1 : ListNodePtr.INVALID = 4294967040 := rfl
      have e2 : ListNodePtr.MAX_USIZE = 4294967040 := rfl
      omega
    have hdata := Arena.data_last a (⟨v, l.node⟩ : Node α)
    show List.peek ⟨a.values.length + 1⟩ ⟨a.values ++ [⟨v, l.node⟩]⟩ = some (some v)
    simp [List.peek, hne, hdata]
  · intro a vs l l' a' hwf hemp hpush
    have hc0 : Chain a l.node [] := by
      rw [List.is_empty_iff.mp hemp]
      exact Chain.nil
    obtain ⟨qxs, hwf', hc', hmap, hlen⟩ := pushAll_sound vs a l [] l' a' hwf hc0 hpush
    rw [List.append_nil] at hc'
    have hiter := List.iter_chain hwf' hc'
    have hql : qxs.length = vs.length := by
      have h := congrArg List.length hmap
      simpa using h
    have hmm : qxs.map (fun q => some q.2) = vs.reverse.map some := by
      rw [← hmap, List.map_map]
      rfl
    have hpm : popMany vs.length l' a' = some (vs.reverse.map some, List.default α) := by
      have h := popMany_chain hc'
      rw [hql, hmm] at h
      exact h
    refine ⟨by rw [hiter.1, hmap], hpm, List.default_is_empty, ?_⟩
    exact List.pop_front_of_empty a' List.default_is_empty

/-- Witness for C1: pushing 1, 2, 3 onto an empty list in an empty arena,
iterating gives [3, 2, 1], and three pops give 3, 2, 1 ending empty. -/
theorem push_peek_iter_pop_spec_witness :
    testList.iter testArena = [1, 2, 3].reverse ∧
      popMany 3 testList testArena
          = some (([1, 2, 3].reverse).map some, List.default Nat) ∧
      (List.default Nat).is_empty = true ∧
      (List.default Nat).pop_front testArena = some (List.default Nat, none) :=
  (@push_peek_iter_pop_spec Nat).2 (Arena.default Nat) [1, 2, 3] (List.default Nat)
    testList testArena (by decide) (by decide) (by decide)

/-- C2: `pop_front` on an empty list handle returns the absent value and
leaves the handle unchanged — hence still empty (idempotent on the empty
list) — and the caller's arena is unchanged. -/
theorem pop_front_empty_spec {α : Type} (a : Arena α) (l : List α)
    (h : l.is_empty = true) :
    l.pop_front a = some (l, none) ∧
      popOp ⟨a, l⟩ = some ((⟨a, l⟩ : State α), none) := by
  have h1 := List.pop_front_of_empty a h
  refine ⟨h1, ?_⟩
  show (l.pop_front a).map (fun r => ((⟨a, r.1⟩ : State α), r.2)) = _
  rw [h1]
  rfl

/-- Witness for C2 at a concrete empty handle and arena. -/
theorem pop_front_empty_spec_witness :
    (List.default Nat).pop_front (Arena.default Nat) = some (List.default Nat, none) ∧
      popOp ⟨Arena.default Nat, List.default Nat⟩
        = some ((⟨Arena.default Nat, List.default Nat⟩ : State Nat), none) :=
  pop_front_empty_spec (Arena.default Nat) (List.default Nat) (by decide)

/-- C3: `is_empty` is true exactly when the handle's pointer equals the
`INVALID` sentinel; for a valid handle, `peek` returns the head element's
value when the chain is non-empty and the absent value when it is empty, and
mutates neither the handle nor the arena. -/
theorem is_empty_peek_spec {α : Type} (a : Arena α) (l : List α)
    (pxs : Vec (Nat × α)) (hc : Chain a l.node pxs) :
    (l.is_empty = true ↔ l.node = ListNodePtr.INVALID) ∧
      (pxs = [] → l.peek a = some none) ∧
      (∀ q x rest, pxs = (q, x) :: rest → l.peek a = some (some x)) ∧
      (∀ r s', peekOp ⟨a, l⟩ = some (r, s') → s' = (⟨a, l⟩ : State α)) := by
  refine ⟨List.is_empty_iff, ?_, ?_, ?_⟩
  · rintro rfl
    exact List.peek_of_empty a (Chain.nil_inv hc)
  · intro q x rest hpxs
    subst hpxs
    exact List.peek_chain_cons hc
  · intro r s' h
    have h' : (l.peek a).map (fun r0 => (r0, (⟨a, l⟩ : State α))) = some (r, s') := h
    cases hpk : l.peek a with
    | none =>
      rw [hpk] at h'
      exact Option.noConfusion h'
    | some r0 =>
      rw [hpk] at h'
      have h2 : some (r0, (⟨a, l⟩ : State α)) = some (r, s') := h'
      injection h2 with hh
      injection hh with hh1 hh2
      exact hh2.symm

/-- Witness for C3 on the test state: `peek` returns the most recent value 3. -/
theorem is_empty_peek_spec_witness :
    testList.peek testArena = some (some 3) :=
  (is_empty_peek_spec testArena testList [(3, 3), (2, 2), (1, 1)] testChain).2.2.1
    3 3 [(2, 2), (1, 1)] rfl

/-- C4: `Arena::add` appends the node at the end of the backing sequence and
returns the 1-based pointer encoding its new position; when the arena holds
fewer than `u32::MAX - 256` nodes the assertion never fires and `add`
succeeds, and the assertion failure (abort) happens exactly when the append
would exceed the maximum capacity of `u32::MAX - 256` entries. -/
theorem arena_add_spec {α : Type} (a : Arena α) (t : Node α) :
    (a.values.length < 4294967039 →
        a.add t = some (⟨a.values ++ [t]⟩, a.values.length + 1) ∧
          ListNodePtr.as_usize (a.values.length + 1) = a.values.length) ∧
      (a.add t = none ↔ 4294967039 < a.values.length + 1) := by
  have e : ListNodePtr.MAX_USIZE = 4294967040 := rfl
  constructor
  · intro h
    refine ⟨Arena.add_eq_some.mpr ⟨by omega, rfl, rfl⟩, ?_⟩
    rw [ListNodePtr.as_usize_eq]
    omega
  · rw [Arena.add_eq_none]
    omega

/-- Witness for C4: adding to an empty arena succeeds and yields pointer 1
(encoding slot 0). -/
theorem arena_add_spec_witness :
    (Arena.default Nat).add ⟨7, ListNodePtr.INVALID⟩
        = some (⟨[⟨7, ListNodePtr.INVALID⟩]⟩, 1) ∧
      ListNodePtr.as_usize 1 = 0 :=
  (arena_add_spec (Arena.default Nat) ⟨7, ListNodePtr.INVALID⟩).1 (by decide)

/-- C5: along any sequence of public operations, the arena only grows, and
every already-occupied slot keeps exactly its node (head value and tail
pointer); an index, once issued, therefore stays valid for the lifetime of
the arena. -/
theorem arena_slots_persist {α : Type} (s s' : Mem α)
    (h : Relation.ReflTransGen Step s s') :
    s.arena.values.length ≤ s'.arena.values.length ∧
      ∀ i, i < s.arena.values.length →
        s'.arena.values[i]? = s.arena.values[i]? := by
  induction h with
  | refl => exact ⟨Nat.le_refl _, fun i h => rfl⟩
  | tail hstar hstep ih =>
    obtain ⟨hle, hpres⟩ := ih
    obtain ⟨hle2, hpres2⟩ := Step.arena_extends hstep
    refine ⟨Nat.le_trans hle hle2, ?_⟩
    intro i hi
    rw [hpres2 i (Nat.lt_of_lt_of_le hi hle), hpres i hi]

/-- Witness for C5: one step (creating a new handle) on the test state
preserves every arena slot. -/
theorem arena_slots_persist_witness :
    (⟨testArena, []⟩ : Mem Nat).arena.values.length
        ≤ (⟨testArena, [List.default Nat]⟩ : Mem Nat).arena.values.length ∧
      ∀ i, i < (⟨testArena, []⟩ : Mem Nat).arena.values.length →
        (⟨testArena, [List.default Nat]⟩ : Mem Nat).arena.values[i]?
          = (⟨testArena, []⟩ : Mem Nat).arena.values[i]? :=
  arena_slots_persist ⟨testArena, []⟩ ⟨testArena, [List.default Nat]⟩
    (Relation.ReflTransGen.single (Step.newHandle ⟨testArena, []⟩))

/-- C6: a handle copied from another shares structure with it: pushing
through one handle changes neither the copy's pointer nor any value the copy
observes (the arena only gains a fresh node, at a fresh pointer); popping one
handle leaves the arena unchanged and the copy still denotes the whole
original sequence, whose tail the advanced handle now shares. -/
theorem clone_sharing_spec {α : Type} (a : Arena α) (l l₂ : List α)
    (pxs : Vec (Nat × α)) (hwf : a.WF) (hclone : l₂ = l.clone)
    (hc : Chain a l.node pxs) :
    l₂.node = l.node ∧
      (∀ v l' a', l.push_front a v = some (l', a') →
          Chain a' l₂.node pxs ∧ l₂.iter a' = pxs.map Prod.snd ∧
            l'.node ≠ l₂.node ∧
            ∀ i, i < a.values.length → a'.values[i]? = a.values[i]?) ∧
      (∀ l' r, l.pop_front a = some (l', r) →
          popOp ⟨a, l⟩ = some ((⟨a, l'⟩ : State α), r) ∧
            l₂.iter a = pxs.map Prod.snd ∧
            (∀ q x rest, pxs = (q, x) :: rest →
              r = some x ∧ l'.iter a = rest.map Prod.snd)) := by
  subst hclone
  refine ⟨rfl, ?_, ?_⟩
  · intro v l' a' hp
    obtain ⟨hcap, hl', ha'⟩ := List.push_front_eq_some.mp hp
    subst hl'
    subst ha'
    have hc2 : Chain (⟨a.values ++ [⟨v, l.node⟩]⟩ : Arena α) (l.clone).node pxs :=
      Chain.mono_append _ hc
    have hwf2 : (⟨a.values ++ [⟨v, l.node⟩]⟩ : Arena α).WF :=
      Arena.WF.push_node hwf (Chain.valid hc)
    refine ⟨hc2, (List.iter_chain hwf2 hc2).1, ?_, ?_⟩
    · have hv := Chain.valid hc
      have e1 : ListNodePtr.INVALID = 4294967040 := rfl
      have e2 : ListNodePtr.MAX_USIZE = 4294967040 := rfl
      show a.values.length + 1 ≠ l.node
      rcases hv with hv | ⟨hv1, hv2⟩
      · omega
      · omega
    · intro i hi
      show (a.values ++ _)[i]? = _
      exact List.getElem?_append_left hi
  · intro l' r hp
    refine ⟨?_, ?_, ?_⟩
    · show (l.pop_front a).map (fun r0 => ((⟨a, r0.1⟩ : State α), r0.2)) = _
      rw [hp]
      rfl
    · have hc2 : Chain a (l.clone).node pxs := hc
      exact (List.iter_chain hwf hc2).1
    · intro q x rest hpxs
      subst hpxs
      obtain ⟨tl, hpop2, hrest, hq⟩ := List.pop_front_chain_cons hc
      have hboth : some (l', r) = some ((⟨tl⟩ : List α), some x) := by
        rw [← hp, hpop2]
      injection hboth with hh
      injection hh with hh1 hh2
      subst hh1
      refine ⟨hh2, ?_⟩
      have hrest2 : Chain a (⟨tl⟩ : List α).node rest := hrest
      exact (List.iter_chain hwf hrest2).1

/-- Witness for C6: popping the test handle yields 3, while the copy still
iterates to the full [3, 2, 1]. -/
theorem clone_sharing_spec_witness :
    testList.clone.iter testArena = [3, 2, 1] ∧
      (⟨2⟩ : List Nat).iter testArena = [2, 1] := by
  have h := clone_sharing_spec testArena testList testList.clone
    [(3, 3), (2, 2), (1, 1)] testArena_wf rfl testChain
  have hpop : testList.pop_front testArena = some (⟨2⟩, some 3) := by decide
  have h2 := h.2.2 ⟨2⟩ (some 3) hpop
  exact ⟨h2.2.1, (h2.2.2 3 3 [(2, 2), (1, 1)] rfl).2⟩

/-- C7: `iter` over a valid handle yields exactly the remaining elements in
head-to-tail order; the internal iteration terminates because the handle copy
became empty (not by fuel exhaustion), no node is visited twice, and the
caller's arena and handle are unchanged by the call. -/
theorem iter_spec {α : Type} (a : Arena α) (l : List α) (pxs : Vec (Nat × α))
    (hwf : a.WF) (hc : Chain a l.node pxs) :
    l.iter a = pxs.map Prod.snd ∧
      (List.iterTrace a (a.values.length + 1) l).2.is_empty = true ∧
      ((List.iterTrace a (a.values.length + 1) l).1.map Prod.fst).Nodup ∧
      iterOp ⟨a, l⟩ = (pxs.map Prod.snd, (⟨a, l⟩ : State α)) := by
  obtain ⟨h1, h2⟩ := List.iter_chain hwf hc
  refine ⟨h1, ?_, ?_, ?_⟩
  · rw [h2]
    exact List.default_is_empty
  · rw [h2]
    exact Chain.nodup hwf hc
  · show (l.iter a, (⟨a, l⟩ : State α)) = _
    rw [h1]

/-- Witness for C7 on the test state. -/
theorem iter_spec_witness :
    testList.iter testArena = [3, 2, 1] ∧
      ((List.iterTrace testArena 4 testList).1.map Prod.fst).Nodup :=
  ⟨(iter_spec testArena testList [(3, 3), (2, 2), (1, 1)] testArena_wf testChain).1,
    (iter_spec testArena testList [(3, 3), (2, 2), (1, 1)] testArena_wf testChain).2.2.1⟩

/-- C8 counterexample: the claim that the original handle instance is consumed
and left empty by `iter` is false.  `List<T>` is `Copy`, so `iter` takes a
copy: in the repository's own test state (after pushing 1, 2, 3), the handle
after the `iter` call is not empty — it still denotes [3, 2, 1] and the next
`pop_front` still returns 3, so iteration is restartable from it. -/
theorem iter_consumes_counterexample :
    pushAll (List.default Nat) (Arena.default Nat) [1, 2, 3]
        = some (testList, testArena) ∧
      testList.iter testArena = [3, 2, 1] ∧
      (iterOp ⟨testArena, testList⟩).2 = (⟨testArena, testList⟩ : State Nat) ∧
      (iterOp ⟨testArena, testList⟩).2.handle.is_empty = false ∧
      testList.pop_front testArena = some (⟨2⟩, some 3) := by
  refine ⟨by decide, by decide, rfl, by decide, by decide⟩

/-- C8 amended: `iter` consumes an internal copy of the handle — the copy does
end empty — while the caller's own handle is unchanged by the call, and
re-running `iter` from that same handle yields the same sequence again. -/
theorem iter_copy_spec {α : Type} (a : Arena α) (l : List α) (pxs : Vec (Nat × α))
    (hwf : a.WF) (hc : Chain a l.node pxs) :
    iterOp ⟨a, l⟩ = (pxs.map Prod.snd, (⟨a, l⟩ : State α)) ∧
      (List.iterTrace a (a.values.length + 1) l).2.is_empty = true ∧
      (iterOp ((iterOp ⟨a, l⟩).2)).1 = pxs.map Prod.snd := by
  obtain ⟨h1, h2⟩ := List.iter_chain hwf hc
  refine ⟨?_, ?_, ?_⟩
  · show (l.iter a, (⟨a, l⟩ : State α)) = _
    rw [h1]
  · rw [h2]
    exact List.default_is_empty
  · show l.iter a = _
    rw [h1]

/-- Witness for C8's amended claim on the test state: iterating twice from the
same handle gives [3, 2, 1] both times. -/
theorem iter_copy_spec_witness :
    (iterOp ⟨testArena, testList⟩).1 = [3, 2, 1] ∧
      (iterOp ((iterOp ⟨testArena, testList⟩).2)).1 = [3, 2, 1] := by
  have h := iter_copy_spec testArena testList [(3, 3), (2, 2), (1, 1)]
    testArena_wf testChain
  exact ⟨congrArg Prod.fst h.1, h.2.2⟩

/-- C9: a `List<T>` handle is one 32-bit index: every valid handle bit pattern
lies below `2 ^ 32`, and there are more than `2 ^ 24` distinct valid patterns,
so 4 bytes are needed and suffice; the niche encoding of `Option<List<T>>`
reuses the same 32 bits — pattern 0, never used by a valid handle, encodes the
absent case — and is lossless, so the optional wrapper costs no extra byte. -/
theorem size_niche_spec (α : Type) :
    (∀ l : List α, l.ValidBits → l.bits < 2 ^ 32) ∧
      (List.default α).ValidBits ∧
      (∀ o : Option (List α), (∀ l, o = some l → l.ValidBits) → optBits o < 2 ^ 32) ∧
      (∀ o₁ o₂ : Option (List α), (∀ l, o₁ = some l → l.ValidBits) →
        (∀ l, o₂ = some l → l.ValidBits) → optBits o₁ = optBits o₂ → o₁ = o₂) ∧
      (∀ l : List α, optBits (some l) = l.bits) ∧
      (∀ i j : Fin 16777217,
        (⟨(i : Nat) + 1⟩ : List α).ValidBits ∧
          ((⟨(i : Nat) + 1⟩ : List α) = (⟨(j : Nat) + 1⟩ : List α) → i = j)) := by
  have hp : (2 : Nat) ^ 32 = 4294967296 := by norm_num
  refine ⟨?_, ?_, ?_, ?_, ?_, ?_⟩
  · intro l hl
    rw [hp]
    exact hl.2
  · refine ⟨?_, ?_⟩
    · show 0 < ListNodePtr.INVALID
      decide
    · show ListNodePtr.INVALID < 4294967296
      decide
  · intro o ho
    cases o with
    | none =>
      rw [hp]
      show (0 : Nat) < 4294967296
      decide
    | some l =>
      rw [hp]
      exact (ho l rfl).2
  · intro o₁ o₂ h₁ h₂ heq
    cases o₁ with
    | none =>
      cases o₂ with
      | none => rfl
      | some l₂ =>
        obtain ⟨hv1, hv2⟩ := h₂ l₂ rfl
        have h0 : (0 : Nat) = l₂.node := heq
        exact absurd h0 (by omega)
    | some l₁ =>
      cases o₂ with
      | none =>
        obtain ⟨hv1, hv2⟩ := h₁ l₁ rfl
        have h0 : l₁.node = 0 := heq
        exact absurd h0 (by omega)
      | some l₂ =>
        have hh : l₁.node = l₂.node := heq
        cases l₁
        cases l₂
        simp only at hh
        subst hh
        rfl
  · intro l
    rfl
  · intro i j
    refine ⟨⟨Nat.succ_pos _, ?_⟩, ?_⟩
    · show (i : Nat) + 1 < 4294967296
      have := i.isLt
      omega
    · intro heq
      injection heq with hh
      exact Fin.ext (by omega)

/-- Witness for C9: the absent case encodes as 0, distinct from the (valid)
empty-handle pattern, within the same 32-bit space. -/
theorem size_niche_spec_witness :
    optBits (some (List.default Nat)) = (List.default Nat).bits ∧
      optBits (none : Option (List Nat)) < 2 ^ 32 := by
  have h := size_niche_spec Nat
  exact ⟨h.2.2.2.2.1 (List.default Nat),
    h.2.2.1 none (fun l hl => Option.noConfusion hl)⟩

/-- C10: in every state reachable through the public operations, the arena
stays below the capacity bound and is well-formed — every stored node's tail
is the sentinel or a nonzero pointer to a strictly earlier slot — so the chain
from every live handle is finite and never meets the same node twice
(acyclic); moreover a pointer freshly returned by `add` is never `INVALID`
and resolves through `data` back to the node just added. -/
theorem reachable_invariant_spec {α : Type} :
    (∀ s : Mem α, Reachable s →
        s.arena.WF ∧ s.arena.values.length < ListNodePtr.MAX_USIZE ∧
          ∀ l ∈ s.handles, ∃ pxs, Chain s.arena l.node pxs ∧
            (pxs.map Prod.fst).Nodup) ∧
      (∀ (a a' : Arena α) (t : Node α) (p : Nat), a.add t = some (a', p) →
          p ≠ ListNodePtr.INVALID ∧ a'.data p = some t) := by
  constructor
  · intro s hs
    obtain ⟨hwf, hlen, hval⟩ := Reachable.invariant hs
    refine ⟨hwf, hlen, ?_⟩
    intro l hl
    obtain ⟨pxs, hcn⟩ := chain_exists hwf hlen l.node (hval l hl)
    exact ⟨pxs, hcn, Chain.nodup hwf hcn⟩
  · intro a a' t p hadd
    obtain ⟨hcap, ha', hp⟩ := Arena.add_eq_some.mp hadd
    subst ha'
    subst hp
    constructor
    · have e1 : ListNodePtr.INVALID = 4294967040 := rfl
      have e2 : ListNodePtr.MAX_USIZE = 4294967040 := rfl
      omega
    · exact Arena.data_last a t

/-- Witness for C10 at the initial reachable state. -/
theorem reachable_invariant_spec_witness :
    (Arena.default Nat).WF ∧
      (Arena.default Nat).values.length < ListNodePtr.MAX_USIZE ∧
      ∀ l ∈ ([] : Vec (List Nat)), ∃ pxs, Chain (Arena.default Nat) l.node pxs ∧
        (pxs.map Prod.fst).Nodup :=
  (@reachable_invariant_spec Nat).1 ⟨Arena.default Nat, []⟩ Reachable.init

end Gigachad
